import Mathlib

/-!
Shallow embedding of the circular-buffer `vector` container of `src/vector.h`.

The container state mirrors the private members of `template <class T> class vector`:
`__elements__` (the physical buffer), `__capacity__`, `__increment__`,
`__reserved__`, `__size__`, `__beginning__`, `__end__`.  C++ `int` arithmetic is
modelled with `Int` (all modulus operands that the code actually evaluates are
nonnegative, where C++ truncated `%` agrees with `Int.emod`).  The raw
allocation primitive (`new (std::nothrow) T[n]`) is modelled by a Boolean
`allocOk` parameter: `true` means the allocation succeeds, `false` that it
returns `NULL`.  Fresh slots hold `default` (the model's stand-in for an
indeterminate default-constructed element).
-/

namespace VecSpec

/-- State of `vector<T>`: the seven private members of the class. `end_` models
`__end__` (Lean reserves the word `end`). -/
structure Vec (α : Type) where
  elements  : List α
  capacity  : Int
  increment : Int
  reserved  : Int
  size      : Int
  beginning : Int
  end_      : Int
  deriving Repr, DecidableEq

variable {α : Type} [Inhabited α]

/-- `vector (int increment = 1)`: the default constructor (lines 56-59). -/
def vecNew (increment : Int) : Vec α :=
  { elements := [], capacity := 0,
    increment := if increment < 1 then 1 else increment,
    reserved := 0, size := 0, beginning := 0, end_ := -1 }

/-- The copy loop of `__changeCapacity__` (lines 572-583): `n` iterations of
`for (int i = 0; i < __size__; i++)`, reading the old ring `old` at cursor `e`
modulo the old capacity `cap`, writing linearly at `i` into `acc`, skipping one
logical index `delAt` and leaving one index `freeAt` unwritten. -/
def ccLoop (old : List α) (cap delAt freeAt : Int) :
    Nat → Int → Int → List α → List α
  | 0, _, _, acc => acc
  | n + 1, i, e, acc =>
    let e1 := if i = delAt then (e + 1) % cap else e
    if i = freeAt then
      ccLoop old cap delAt freeAt n (i + 1) e1 acc
    else
      ccLoop old cap delAt freeAt n (i + 1) ((e1 + 1) % cap)
        (acc.set i.toNat (old.getD e1.toNat default))

/-- The size bookkeeping of `__changeCapacity__` (lines 568-570): decrement
for a deleted element, increment for a reserved free slot, clamp at the new
capacity. -/
def ccNewSize (v : Vec α) (newCapacity delAt freeAt : Int) : Int :=
  if newCapacity < v.size + (if 0 ≤ delAt then -1 else 0) + (if 0 ≤ freeAt then 1 else 0)
  then newCapacity
  else v.size + (if 0 ≤ delAt then -1 else 0) + (if 0 ≤ freeAt then 1 else 0)

/-- `__changeCapacity__ (newCapacity, deleteElementAtPosition, leaveFreeSlotAtPosition)`
(lines 544-594).  `none` models returning `false` on allocation failure (the
source returns before mutating anything, so failure leaves the state as it was). -/
def changeCapacity (v : Vec α) (allocOk : Bool)
    (newCapacity delAt freeAt : Int) : Option (Vec α) :=
  if newCapacity = 0 then
    some { elements := [], capacity := 0, increment := v.increment,
           reserved := v.reserved, size := 0, beginning := 0, end_ := -1 }
  else if allocOk = false then none
  else
    some { elements := ccLoop v.elements v.capacity delAt freeAt
             (ccNewSize v newCapacity delAt freeAt).toNat 0 v.beginning
             (List.replicate newCapacity.toNat default),
           capacity := newCapacity, increment := v.increment,
           reserved := v.reserved, size := ccNewSize v newCapacity delAt freeAt,
           beginning := 0, end_ := ccNewSize v newCapacity delAt freeAt - 1 }

/-- The element-writing block of `push_back` (lines 251-256), run once enough
space is guaranteed. -/
def pushBackFill (v1 : Vec α) (element : α) : Vec α :=
  if v1.size + 1 = 1 then
    { v1 with elements := v1.elements.set ((v1.end_ + 1) % v1.capacity).toNat element,
              end_ := (v1.end_ + 1) % v1.capacity, size := v1.size + 1,
              beginning := (v1.end_ + 1) % v1.capacity }
  else
    { v1 with elements := v1.elements.set ((v1.end_ + 1) % v1.capacity).toNat element,
              end_ := (v1.end_ + 1) % v1.capacity, size := v1.size + 1 }

/-- The element-writing block of `push_front` (lines 267-272). -/
def pushFrontFill (v1 : Vec α) (element : α) : Vec α :=
  if v1.size + 1 = 1 then
    { v1 with elements := v1.elements.set ((v1.beginning + v1.capacity - 1) % v1.capacity).toNat element,
              beginning := (v1.beginning + v1.capacity - 1) % v1.capacity, size := v1.size + 1,
              end_ := (v1.beginning + v1.capacity - 1) % v1.capacity }
  else
    { v1 with elements := v1.elements.set ((v1.beginning + v1.capacity - 1) % v1.capacity).toNat element,
              beginning := (v1.beginning + v1.capacity - 1) % v1.capacity, size := v1.size + 1 }

/-- `push_back` (lines 244-257). -/
def push_back (allocOk : Bool) (v : Vec α) (element : α) : Vec α × Bool :=
  match (if v.size = v.capacity
         then changeCapacity v allocOk (v.capacity + v.increment) (-1) (-1)
         else some v) with
  | none => (v, false)
  | some v1 => (pushBackFill v1 element, true)

/-- `push_front` (lines 261-273). -/
def push_front (allocOk : Bool) (v : Vec α) (element : α) : Vec α × Bool :=
  match (if v.size = v.capacity
         then changeCapacity v allocOk (v.capacity + v.increment) (-1) (-1)
         else some v) with
  | none => (v, false)
  | some v1 => (pushFrontFill v1 element, true)

/-- The opportunistic shrink-after-removal block shared verbatim by
`pop_back` (lines 299-302) and `pop_front` (lines 322-325): shrink to `size`
when spare capacity exceeds `increment - 1` and no active reservation floor
forbids it; a failed shrink allocation is ignored. -/
def popShrink (allocOk : Bool) (v1 : Vec α) : Vec α :=
  if v1.size + v1.increment - 1 < v1.capacity then
    if v1.reserved = 0 ∨ v1.reserved ≤ v1.size then
      match changeCapacity v1 allocOk v1.size (-1) (-1) with
      | some w => w
      | none => v1
    else v1
  else v1

/-- `pop_back` (lines 285-304). -/
def pop_back (allocOk : Bool) (v : Vec α) : Vec α × Bool :=
  if v.size = 0 then (v, false)
  else (popShrink allocOk { v with end_ := (v.end_ + v.capacity - 1) % v.capacity,
                                   size := v.size - 1 }, true)

/-- `pop_front` (lines 308-327). -/
def pop_front (allocOk : Bool) (v : Vec α) : Vec α × Bool :=
  if v.size = 0 then (v, false)
  else (popShrink allocOk { v with beginning := (v.beginning + 1) % v.capacity,
                                   size := v.size - 1 }, true)

/-- The descending copy loop shared by `erase`'s shift-toward-front branch
(lines 375-380) and `insert`'s shift-toward-back branch (lines 446-451):
`n` iterations of `elems[e1] = elems[(e1 + cap - 1) % cap]; e1 = (e1 + cap - 1) % cap`. -/
def shiftDownLoop (cap : Int) : Nat → Int → List α → List α
  | 0, _, elems => elems
  | n + 1, e1, elems =>
    let e2 := (e1 + cap - 1) % cap
    shiftDownLoop cap n e2 (elems.set e1.toNat (elems.getD e2.toNat default))

/-- The ascending copy loop shared by `erase`'s shift-toward-back branch
(lines 386-391) and `insert`'s shift-toward-front branch (lines 433-438):
`n` iterations of `elems[e1] = elems[(e1 + 1) % cap]; e1 = (e1 + 1) % cap`. -/
def shiftUpLoop (cap : Int) : Nat → Int → List α → List α
  | 0, _, elems => elems
  | n + 1, e1, elems =>
    let e2 := (e1 + 1) % cap
    shiftUpLoop cap n e2 (elems.set e1.toNat (elems.getD e2.toNat default))

/-- `erase (position)` (lines 354-396).  Note the shift-toward-back branch
starts its cursor at the raw `position` (`int e1 = position;`, line 386),
exactly as the source does. -/
def erase (allocOk : Bool) (v : Vec α) (position : Int) : Vec α × Bool :=
  if position < 0 ∨ v.size ≤ position then (v, false)
  else if position = v.size - 1 then pop_back allocOk v
  else if position = 0 then pop_front allocOk v
  else if v.size - 1 + v.increment - 1 < v.capacity then
    match changeCapacity v allocOk (v.size - 1) position (-1) with
    | some w => (w, true)
    | none => (v, false)
  else if position < v.size - position then
    let elems := shiftDownLoop v.capacity position.toNat
      ((v.beginning + position) % v.capacity) v.elements
    ((pop_front allocOk { v with elements := elems }).1, true)
  else
    let elems := shiftUpLoop v.capacity (v.size - 1 - position).toNat position v.elements
    ((pop_back allocOk { v with elements := elems }).1, true)

/-- `insert (position, element)` (lines 406-456).  Both shift branches write
the new element at the raw physical slot `position`
(`__elements__ [position] = element;`, lines 440 and 453), exactly as the
source does. -/
def insert (allocOk : Bool) (v : Vec α) (position : Int) (element : α) : Vec α × Bool :=
  if position < 0 ∨ v.size ≤ position then (v, false)
  else if position = v.size - 1 then push_back allocOk v element
  else if position = 0 then push_front allocOk v element
  else if v.capacity < v.size + 1 then
    match changeCapacity v allocOk (v.size + v.increment) (-1) position with
    | some w => ({ w with elements := w.elements.set position.toNat element }, true)
    | none => (v, false)
  else if position < v.size - position then
    let b := (v.beginning + v.capacity - 1) % v.capacity
    let elems := shiftUpLoop v.capacity (position.toNat + 1) b v.elements
    ({ v with beginning := b, size := v.size + 1,
              elements := elems.set position.toNat element }, true)
  else
    let e := (v.end_ + 1) % v.capacity
    let elems := shiftDownLoop v.capacity (v.size - position).toNat e v.elements
    ({ v with end_ := e, size := v.size + 1,
              elements := elems.set position.toNat element }, true)

/-- `reserve (newCapacity)` (lines 105-116). -/
def reserve (allocOk : Bool) (v : Vec α) (newCapacity : Int) : Vec α × Bool :=
  if newCapacity < v.size then (v, false)
  else if v.size < newCapacity then
    match changeCapacity v allocOk newCapacity (-1) (-1) with
    | some w => ({ w with reserved := newCapacity }, true)
    | none => (v, false)
  else (v, true)

/-- `clear` (lines 126-129): reset `__reserved__`, then release the buffer if
one is held (`__elements__ != NULL` corresponds to a nonempty physical list). -/
def clear (v : Vec α) : Vec α :=
  let v1 : Vec α := { v with reserved := 0 }
  if v1.elements.isEmpty then v1
  else
    match changeCapacity v1 true 0 (-1) (-1) with
    | some w => w
    | none => v1

/-- One step of `Iterator::operator ++` (lines 483-488): plain increment when
`__end__ >= __beginning__`, increment modulo capacity otherwise. -/
def iterNext (v : Vec α) (pos : Int) : Int :=
  if v.beginning ≤ v.end_ then pos + 1 else (pos + 1) % v.capacity

/-- The range-for loop over `begin () .. end ()`: dereference and advance until
the cursor position equals `endPos` (`operator !=` compares positions only).
Fuel bounds the walk; `v.capacity.toNat + 1` steps always suffice for the
states the iterator is used on. -/
def iterGo (v : Vec α) (endPos : Int) : Nat → Int → List α
  | 0, _ => []
  | n + 1, pos =>
    if pos = endPos then []
    else v.elements.getD pos.toNat default :: iterGo v endPos n (iterNext v pos)

/-- Elements visited by `for (auto e : v)`, i.e. iterating from
`begin () = Iterator (this, __beginning__)` to `end () = Iterator (this, __end__ + 1)`
(lines 498-499). -/
def iterate (v : Vec α) : List α :=
  iterGo v (v.end_ + 1) (v.capacity.toNat + 1) v.beginning

/-- `vector (std::initializer_list)` (lines 69-73): reserve the sequence's
length (abandoning the pushes if that fails), then `push_back` each element. -/
def fromList (allocOk : Bool) (S : List α) : Vec α :=
  if (reserve allocOk (vecNew 1 : Vec α) (S.length : Int)).2 then
    S.foldl (fun w x => (push_back allocOk w x).1)
      (reserve allocOk (vecNew 1 : Vec α) (S.length : Int)).1
  else (reserve allocOk (vecNew 1 : Vec α) (S.length : Int)).1

/-- The linear (unwrapped, `B = 0`) states traversed while an
initializer-list constructor fills a freshly reserved buffer of `n` slots
with its first `k` elements. -/
def linState (n k : Nat) (L : List α) : Vec α :=
  { elements := L, capacity := (n : Int), increment := 1, reserved := (n : Int),
    size := (k : Int), beginning := 0, end_ := (k : Int) - 1 }

/-- The logical contents of the container: element `i` lives at physical slot
`(__beginning__ + i) % __capacity__` (line 151). -/
def logicalList (v : Vec α) : List α :=
  (List.range v.size.toNat).map
    (fun i => v.elements.getD ((v.beginning + (i : Int)) % v.capacity).toNat default)

/-- A sequence of successful `push_back` calls (the usual way callers fill a
vector, e.g. `test.ino` and `BasicUsage.ino`). -/
def pushSeq (v : Vec α) (xs : List α) : Vec α :=
  xs.foldl (fun w x => (push_back true w x).1) v

/-- Representation invariant of the container.  The first three conjuncts are
the documented invariant (`0 ≤ N ≤ C`; `C == 0` means the canonical empty
state with no buffer; `N > 0 ⇒ E == (B + N − 1) mod C`); the remaining
conjuncts are auxiliary structural facts the code maintains alongside them
(the physical buffer has exactly `C` slots, `0 ≤ B < C` when `C > 0`,
`K ≥ 1`, `reserved ≥ 0`). -/
def Inv (v : Vec α) : Prop :=
  0 ≤ v.size ∧ v.size ≤ v.capacity ∧
  (v.capacity = 0 → v.size = 0 ∧ v.elements = [] ∧ v.beginning = 0 ∧ v.end_ = -1) ∧
  (0 < v.size → v.end_ = (v.beginning + v.size - 1) % v.capacity) ∧
  v.elements.length = v.capacity.toNat ∧
  0 ≤ v.beginning ∧
  (0 < v.capacity → v.beginning < v.capacity) ∧
  1 ≤ v.increment ∧
  0 ≤ v.reserved

instance {α : Type} [Inhabited α] [DecidableEq α] (v : Vec α) : Decidable (Inv v) := by
  unfold Inv; infer_instance

/-- Reachable state for C1: `vector<int> (3)`, `push_back` of `1..6`, then
`pop_front` — logical contents `[2,3,4,5,6]` with `__beginning__ = 1`. -/
def c1state : Vec Int := (pop_front true (pushSeq (vecNew 3) [1,2,3,4,5,6])).1

/-- Reachable state for C2: `reserve (8)`, `push_back` of `1..6`, then two
`pop_front` calls — logical contents `[3,4,5,6]` with `__beginning__ = 2`. -/
def c2state : Vec Int :=
  (pop_front true (pop_front true (pushSeq (reserve true (vecNew 1) 8).1 [1,2,3,4,5,6])).1).1

/-- Reachable state for C3: `reserve (2)`, `push_back (1)`, `push_back (2)`,
`pop_front`, `push_back (3)` — a full wrapped window with `E = 0` and `B = 1`. -/
def c3state : Vec Int :=
  (push_back true (pop_front true (pushSeq (reserve true (vecNew 1) 2).1 [1,2])).1 3).1

/-- Reachable state for C4: `reserve (8)` (an active floor of 8), then
`push_back` of `1,2,3`. -/
def c4state : Vec Int := pushSeq (reserve true (vecNew 1) 8).1 [1,2,3]

/-- Reachable state for C6: `vector<int> (10)`, then two `push_back` calls —
capacity 10, size 2. -/
def c6state : Vec Int := pushSeq (vecNew 10) [1,2]

/-- Modelled from the spec: the error taxonomy of section 7 (`OutOfRange`,
`BadAlloc`, `LengthError`, plus the `OK` state).  The error-reporting variant
of `vector.h` that defines `vector<T>::errorCode` is referenced by the
repository's README and example sketches but is not among the provided source
files. -/
inductive ErrorCode
  | OK
  | OutOfRange
  | BadAlloc
  | LengthError
  deriving Repr, DecidableEq

/-- Modelled from the spec: a container carrying the sticky `lastErrorCode`
field of sections 4.6 and 7 (missing from `src/vector.h`, which returns plain
`bool`): it starts `OK`, every failing call overwrites it with that call's
failure kind, successful calls leave it alone, and it is cleared only by an
explicit `clearLastErrorCode`. -/
structure EVec (α : Type) where
  vec : Vec α
  lastErrorCode : ErrorCode
  deriving Repr, DecidableEq

/-- Modelled from the spec: construction starts with `lastErrorCode == OK`. -/
def einit (increment : Int) : EVec α := ⟨vecNew increment, ErrorCode.OK⟩

/-- Modelled from the spec: latch a call's result into the sticky field —
a failure overwrites it with that call's kind, a success leaves it unchanged. -/
def elatch (s : EVec α) (v : Vec α) (r : ErrorCode) : EVec α :=
  ⟨v, if r = ErrorCode.OK then s.lastErrorCode else r⟩

/-- Modelled from the spec: `push_back` returning its own result and latching
`BadAlloc` on growth failure. -/
def epush_back (allocOk : Bool) (s : EVec α) (x : α) : EVec α × ErrorCode :=
  let p := push_back allocOk s.vec x
  let r := if p.2 then ErrorCode.OK else ErrorCode.BadAlloc
  (elatch s p.1 r, r)

/-- Modelled from the spec: `push_front`, failing only with `BadAlloc`. -/
def epush_front (allocOk : Bool) (s : EVec α) (x : α) : EVec α × ErrorCode :=
  let p := push_front allocOk s.vec x
  let r := if p.2 then ErrorCode.OK else ErrorCode.BadAlloc
  (elatch s p.1 r, r)

/-- Modelled from the spec: `pop_back`, failing only with `OutOfRange`
(empty container). -/
def epop_back (allocOk : Bool) (s : EVec α) : EVec α × ErrorCode :=
  let p := pop_back allocOk s.vec
  let r := if p.2 then ErrorCode.OK else ErrorCode.OutOfRange
  (elatch s p.1 r, r)

/-- Modelled from the spec: `pop_front`, failing only with `OutOfRange`. -/
def epop_front (allocOk : Bool) (s : EVec α) : EVec α × ErrorCode :=
  let p := pop_front allocOk s.vec
  let r := if p.2 then ErrorCode.OK else ErrorCode.OutOfRange
  (elatch s p.1 r, r)

/-- Modelled from the spec: `insert`, failing with `OutOfRange` on a bad index
and `BadAlloc` on a failed regrowth. -/
def einsert (allocOk : Bool) (s : EVec α) (i : Int) (x : α) : EVec α × ErrorCode :=
  let p := insert allocOk s.vec i x
  let r := if p.2 then ErrorCode.OK
           else if i < 0 ∨ s.vec.size ≤ i then ErrorCode.OutOfRange
           else ErrorCode.BadAlloc
  (elatch s p.1 r, r)

/-- Modelled from the spec: `erase`, failing with `OutOfRange` on a bad index
and `BadAlloc` on a failed combined reallocation. -/
def eerase (allocOk : Bool) (s : EVec α) (i : Int) : EVec α × ErrorCode :=
  let p := erase allocOk s.vec i
  let r := if p.2 then ErrorCode.OK
           else if i < 0 ∨ s.vec.size ≤ i then ErrorCode.OutOfRange
           else ErrorCode.BadAlloc
  (elatch s p.1 r, r)

/-- Modelled from the spec: `reserve`, failing with the `LengthError`-class
condition when `n < size` and `BadAlloc` on a failed allocation. -/
def ereserve (allocOk : Bool) (s : EVec α) (n : Int) : EVec α × ErrorCode :=
  let p := reserve allocOk s.vec n
  let r := if p.2 then ErrorCode.OK
           else if n < s.vec.size then ErrorCode.LengthError
           else ErrorCode.BadAlloc
  (elatch s p.1 r, r)

/-- Modelled from the spec: the explicit `clearLastErrorCode ()` reset. -/
def eclearLastErrorCode (s : EVec α) : EVec α := ⟨s.vec, ErrorCode.OK⟩

end VecSpec

namespace VecSpec

variable {α : Type} [Inhabited α]

/-- C1: the claim fails on the code.  On the reachable state `c1state`
(logical contents `[2,3,4,5,6]`, `__beginning__ = 1`, capacity 6,
increment 3), `erase (3)` reports success but leaves `[2,3,5,5]` instead of
removing the element at index 3 (which would give `[2,3,4,6]`): the
shift-toward-back branch indexes the ring with the raw logical position
(`int e1 = position;`, line 386) instead of `(__beginning__ + position) %
__capacity__`. -/
theorem c1_erase_back_shift_bug :
    logicalList c1state = [2, 3, 4, 5, 6] ∧
    (erase true c1state 3).2 = true ∧
    logicalList (erase true c1state 3).1 = [2, 3, 5, 5] ∧
    logicalList (erase true c1state 3).1 ≠ [2, 3, 4, 6] := by decide

/-- C2: the claim fails on the code.  On the reachable state `c2state`
(logical contents `[3,4,5,6]`, `__beginning__ = 2`, capacity 8),
`insert (1, 99)` reports success but yields `[99,4,4,5,6]` instead of
`[3,99,4,5,6]`: after ring-shifting, both shift branches write the new
element at the raw physical slot `position`
(`__elements__ [position] = element;`, lines 440/453) instead of
`(__beginning__ + position) % __capacity__`. -/
theorem c2_insert_raw_position_bug :
    logicalList c2state = [3, 4, 5, 6] ∧
    (insert true c2state 1 99).2 = true ∧
    logicalList (insert true c2state 1 99).1 = [99, 4, 4, 5, 6] ∧
    logicalList (insert true c2state 1 99).1 ≠ [3, 99, 4, 5, 6] := by decide

/-- C3: the claim fails on the code.  `c3state` is a reachable state whose
live window is full and physically wrapped (`size = capacity = 2`,
`__beginning__ = 1`, `__end__ = 0`, logical contents `[2,3]`); there
`begin ()` and `end ()` hold the same position (`__end__ + 1 = 1 =
__beginning__`), so the `!=`-terminated traversal visits zero elements
instead of the 2 logical ones. -/
theorem c3_iterator_full_wrapped_bug :
    c3state.size = 2 ∧ c3state.beginning = 1 ∧ c3state.end_ = 0 ∧
    logicalList c3state = [2, 3] ∧
    iterate c3state = [] := by decide

/-- C4: the claim fails on the code.  `c4state` has an active reservation
floor of 8 (capacity 8, size 3); `erase (1)` takes the combined
erase-and-shrink reallocation (line 370), which consults only the increment
and not `__reserved__`, and shrinks capacity to 2 — below the floor — while
reporting success. -/
theorem c4_erase_ignores_reserve_floor :
    c4state.reserved = 8 ∧ c4state.capacity = 8 ∧ c4state.size = 3 ∧
    (erase true c4state 1).2 = true ∧
    (erase true c4state 1).1.capacity = 2 ∧
    (erase true c4state 1).1.reserved = 8 := by decide

/-- C6 counterexample: on the reachable state `c6state` (capacity 10,
size 2), `reserve (3)` succeeds and leaves capacity 3 — `reserve` with
`size < n < capacity` reallocates to exactly `n`, *reducing* the pre-call
capacity, contrary to the claim that it never does. -/
theorem c6_reserve_shrinks_counterexample :
    c6state.capacity = 10 ∧ c6state.size = 2 ∧
    (reserve true c6state 3).2 = true ∧
    (reserve true c6state 3).1.capacity = 3 := by decide

theorem push_back_fail_eq (a : Bool) (v : Vec α) (x : α)
    (h : (push_back a v x).2 = false) : (push_back a v x).1 = v := by
  unfold push_back at h ⊢
  split at h
  · rfl
  · simp at h

theorem push_front_fail_eq (a : Bool) (v : Vec α) (x : α)
    (h : (push_front a v x).2 = false) : (push_front a v x).1 = v := by
  unfold push_front at h ⊢
  split at h
  · rfl
  · simp at h

theorem pop_back_fail_eq (a : Bool) (v : Vec α)
    (h : (pop_back a v).2 = false) : (pop_back a v).1 = v := by
  by_cases h0 : v.size = 0
  · simp [pop_back, h0]
  · exfalso
    simp [pop_back, h0] at h

theorem pop_front_fail_eq (a : Bool) (v : Vec α)
    (h : (pop_front a v).2 = false) : (pop_front a v).1 = v := by
  by_cases h0 : v.size = 0
  · simp [pop_front, h0]
  · exfalso
    simp [pop_front, h0] at h

theorem insert_fail_eq (a : Bool) (v : Vec α) (i : Int) (x : α)
    (h : (insert a v i x).2 = false) : (insert a v i x).1 = v := by
  by_cases h1 : i < 0 ∨ v.size ≤ i
  · simp [insert, h1]
  · by_cases h2 : i = v.size - 1
    · simp only [insert, if_neg h1, if_pos h2] at h ⊢
      exact push_back_fail_eq a v x h
    · by_cases h3 : i = 0
      · simp only [insert, if_neg h1, if_neg h2, if_pos h3] at h ⊢
        exact push_front_fail_eq a v x h
      · by_cases h4 : v.capacity < v.size + 1
        · simp only [insert, if_neg h1, if_neg h2, if_neg h3, if_pos h4] at h ⊢
          split at h
          · simp at h
          · rfl
        · by_cases h5 : i < v.size - i
          · exfalso; simp [insert, h1, h2, h3, h4, h5] at h
          · exfalso; simp [insert, h1, h2, h3, h4, h5] at h

theorem erase_fail_eq (a : Bool) (v : Vec α) (i : Int)
    (h : (erase a v i).2 = false) : (erase a v i).1 = v := by
  by_cases h1 : i < 0 ∨ v.size ≤ i
  · simp [erase, h1]
  · by_cases h2 : i = v.size - 1
    · simp only [erase, if_neg h1, if_pos h2] at h ⊢
      exact pop_back_fail_eq a v h
    · by_cases h3 : i = 0
      · simp only [erase, if_neg h1, if_neg h2, if_pos h3] at h ⊢
        exact pop_front_fail_eq a v h
      · by_cases h4 : v.size - 1 + v.increment - 1 < v.capacity
        · simp only [erase, if_neg h1, if_neg h2, if_neg h3, if_pos h4] at h ⊢
          split at h
          · simp at h
          · rfl
        · by_cases h5 : i < v.size - i
          · exfalso; simp [erase, h1, h2, h3, h4, h5] at h
          · exfalso; simp [erase, h1, h2, h3, h4, h5] at h

theorem reserve_fail_eq (a : Bool) (v : Vec α) (n : Int)
    (h : (reserve a v n).2 = false) : (reserve a v n).1 = v := by
  by_cases h1 : n < v.size
  · simp [reserve, h1]
  · by_cases h2 : v.size < n
    · simp only [reserve, if_neg h1, if_pos h2] at h ⊢
      split at h
      · simp at h
      · rfl
    · simp [reserve, h1, h2]

/-- C5: failure is atomic.  For every container state and every operation
among `push_back`, `push_front`, `pop_back`, `pop_front`, `insert`, `erase`
and `reserve` — with the raw allocation either succeeding or failing — if the
call reports failure, the entire state (hence size, capacity and the logical
element sequence) is exactly the pre-call state. -/
theorem c5_failure_is_atomic (allocOk : Bool) (v : Vec α) (x : α) (i n : Int) :
    ((push_back allocOk v x).2 = false → (push_back allocOk v x).1 = v) ∧
    ((push_front allocOk v x).2 = false → (push_front allocOk v x).1 = v) ∧
    ((pop_back allocOk v).2 = false → (pop_back allocOk v).1 = v) ∧
    ((pop_front allocOk v).2 = false → (pop_front allocOk v).1 = v) ∧
    ((insert allocOk v i x).2 = false → (insert allocOk v i x).1 = v) ∧
    ((erase allocOk v i).2 = false → (erase allocOk v i).1 = v) ∧
    ((reserve allocOk v n).2 = false → (reserve allocOk v n).1 = v) :=
  ⟨push_back_fail_eq allocOk v x, push_front_fail_eq allocOk v x,
   pop_back_fail_eq allocOk v, pop_front_fail_eq allocOk v,
   insert_fail_eq allocOk v i x, erase_fail_eq allocOk v i,
   reserve_fail_eq allocOk v n⟩

/-- Witness for C5: a failed `push_back` under an injected allocation failure
on a full container leaves the concrete state `c6state` untouched, and a
failed `pop_back` on an empty container leaves it untouched. -/
theorem c5_failure_is_atomic_witness :
    (pop_back true (vecNew 1 : Vec Int)).2 = false ∧
    (pop_back true (vecNew 1 : Vec Int)).1 = vecNew 1 :=
  ⟨by decide, (c5_failure_is_atomic true (vecNew 1 : Vec Int) 0 0 0).2.2.1 (by decide)⟩

theorem reserve_grow_facts (v : Vec α) (n : Int) (hsz : 0 ≤ v.size)
    (h1 : v.size < n) :
    (reserve true v n).2 = true ∧ (reserve true v n).1.capacity = n ∧
    (reserve true v n).1.reserved = n ∧ (reserve true v n).1.size = v.size := by
  have h0 : ¬ n = 0 := by omega
  have hnl : ¬ n < v.size := by omega
  simp [reserve, changeCapacity, h0, hnl, h1]
  rw [ccNewSize]
  norm_num
  omega

/-- C6 (amended): `reserve (n)` fails and leaves the container unchanged iff
`n < size`; otherwise (with the allocation succeeding) it returns success and
leaves `capacity () ≥ n`.  When `n > size` it reallocates to capacity exactly
`n` — which may be *below* the pre-call capacity — and records `n` as the
shrink floor; when `n = size` it leaves the whole state (capacity and
recorded floor included) unchanged. -/
theorem c6_reserve_amended (v : Vec α) (n : Int) (hv : Inv v) :
    (n < v.size → reserve true v n = (v, false)) ∧
    (¬ n < v.size → (reserve true v n).2 = true ∧ n ≤ (reserve true v n).1.capacity) ∧
    (n = v.size → (reserve true v n).1 = v) ∧
    (v.size < n → (reserve true v n).1.capacity = n ∧
      (reserve true v n).1.reserved = n ∧ (reserve true v n).1.size = v.size) := by
  obtain ⟨hs0, hsc, -, -, -, -, -, -, -⟩ := hv
  refine ⟨fun h => by simp [reserve, h], fun h => ?_, fun h => ?_, fun h => ?_⟩
  · rcases lt_or_eq_of_le (not_lt.mp h) with h2 | h2
    · obtain ⟨ht, hc, -, -⟩ := reserve_grow_facts v n hs0 h2
      exact ⟨ht, by omega⟩
    · have hnl : ¬ n < v.size := by omega
      have hng : ¬ v.size < n := by omega
      simp [reserve, hnl, hng]
      omega
  · have hnl : ¬ n < v.size := by omega
    have hng : ¬ v.size < n := by omega
    simp [reserve, hnl, hng]
  · exact (reserve_grow_facts v n hs0 h).2

/-- Witness for C6's amended theorem: `reserve (0)` on a freshly constructed
empty vector succeeds and leaves it unchanged. -/
theorem c6_reserve_amended_witness :
    Inv (vecNew 1 : Vec Int) ∧ (reserve true (vecNew 1 : Vec Int) 0).1 = vecNew 1 :=
  ⟨by decide, (c6_reserve_amended (vecNew 1 : Vec Int) 0 (by decide)).2.2.1 (by decide)⟩

/-- C10: `clear ()` always succeeds and collapses any state satisfying the
representation invariant to the canonical empty state — size 0, capacity 0,
no buffer — and resets the reservation floor to 0, so an earlier
`reserve (n)` floor no longer restricts the automatic shrinking performed by
later removals. -/
theorem c10_clear_resets (v : Vec α) (hv : Inv v) :
    (clear v).reserved = 0 ∧ (clear v).capacity = 0 ∧ (clear v).size = 0 ∧
    (clear v).elements = [] ∧ (clear v).beginning = 0 ∧ (clear v).end_ = -1 := by
  obtain ⟨hs0, hsc, hc0, -, hlen, -, -, -, -⟩ := hv
  unfold clear
  by_cases he : v.elements.isEmpty
  · have hcap : v.capacity = 0 := by
      rw [List.isEmpty_iff_length_eq_zero] at he
      omega
    obtain ⟨h1, h2, h3, h4⟩ := hc0 hcap
    simp [he, hcap, h1, h2, h3, h4]
  · simp [he, changeCapacity]

/-- Witness for C10 at a concrete reachable state with an active floor. -/
theorem c10_clear_resets_witness :
    Inv c4state ∧ (clear c4state).reserved = 0 ∧ (clear c4state).capacity = 0 ∧
    (clear c4state).size = 0 ∧ (clear c4state).elements = [] ∧
    (clear c4state).beginning = 0 ∧ (clear c4state).end_ = -1 :=
  ⟨by decide, c10_clear_resets c4state (by decide)⟩

theorem elatch_spec (s : EVec α) (v : Vec α) (r : ErrorCode) :
    (r ≠ ErrorCode.OK → (elatch s v r).lastErrorCode = r) ∧
    (r = ErrorCode.OK → (elatch s v r).lastErrorCode = s.lastErrorCode) := by
  constructor <;> intro h <;> simp [elatch, h]

/-- C7 (spec-modelled): the sticky `lastErrorCode` state machine.  It starts
at `OK` on construction; every failing call overwrites it with that call's
own failure kind (the call's returned result); every successful call leaves
it untouched, so it persists across later successes until
`clearLastErrorCode` explicitly resets it to `OK` (touching nothing else);
and every call also returns its own immediate result alongside the sticky
field. -/
theorem c7_sticky_last_error (s : EVec α) (k i n : Int) (a : Bool) (x : α) :
    (einit k : EVec α).lastErrorCode = ErrorCode.OK ∧
    (eclearLastErrorCode s).lastErrorCode = ErrorCode.OK ∧
    (eclearLastErrorCode s).vec = s.vec ∧
    ((epush_back a s x).2 ≠ ErrorCode.OK →
      (epush_back a s x).1.lastErrorCode = (epush_back a s x).2) ∧
    ((epush_back a s x).2 = ErrorCode.OK →
      (epush_back a s x).1.lastErrorCode = s.lastErrorCode) ∧
    ((epush_front a s x).2 ≠ ErrorCode.OK →
      (epush_front a s x).1.lastErrorCode = (epush_front a s x).2) ∧
    ((epush_front a s x).2 = ErrorCode.OK →
      (epush_front a s x).1.lastErrorCode = s.lastErrorCode) ∧
    ((epop_back a s).2 ≠ ErrorCode.OK →
      (epop_back a s).1.lastErrorCode = (epop_back a s).2) ∧
    ((epop_back a s).2 = ErrorCode.OK →
      (epop_back a s).1.lastErrorCode = s.lastErrorCode) ∧
    ((epop_front a s).2 ≠ ErrorCode.OK →
      (epop_front a s).1.lastErrorCode = (epop_front a s).2) ∧
    ((epop_front a s).2 = ErrorCode.OK →
      (epop_front a s).1.lastErrorCode = s.lastErrorCode) ∧
    ((einsert a s i x).2 ≠ ErrorCode.OK →
      (einsert a s i x).1.lastErrorCode = (einsert a s i x).2) ∧
    ((einsert a s i x).2 = ErrorCode.OK →
      (einsert a s i x).1.lastErrorCode = s.lastErrorCode) ∧
    ((eerase a s i).2 ≠ ErrorCode.OK →
      (eerase a s i).1.lastErrorCode = (eerase a s i).2) ∧
    ((eerase a s i).2 = ErrorCode.OK →
      (eerase a s i).1.lastErrorCode = s.lastErrorCode) ∧
    ((ereserve a s n).2 ≠ ErrorCode.OK →
      (ereserve a s n).1.lastErrorCode = (ereserve a s n).2) ∧
    ((ereserve a s n).2 = ErrorCode.OK →
      (ereserve a s n).1.lastErrorCode = s.lastErrorCode) :=
  ⟨rfl, rfl, rfl,
   (elatch_spec s _ _).1, (elatch_spec s _ _).2,
   (elatch_spec s _ _).1, (elatch_spec s _ _).2,
   (elatch_spec s _ _).1, (elatch_spec s _ _).2,
   (elatch_spec s _ _).1, (elatch_spec s _ _).2,
   (elatch_spec s _ _).1, (elatch_spec s _ _).2,
   (elatch_spec s _ _).1, (elatch_spec s _ _).2,
   (elatch_spec s _ _).1, (elatch_spec s _ _).2⟩

/-- Witness for C7: a `pop_back` on a fresh empty container fails with
`OutOfRange` and latches it into the sticky field. -/
theorem c7_sticky_last_error_witness :
    (epop_back true (einit 1 : EVec Int)).2 ≠ ErrorCode.OK ∧
    (epop_back true (einit 1 : EVec Int)).1.lastErrorCode =
      (epop_back true (einit 1 : EVec Int)).2 :=
  ⟨by decide,
   (c7_sticky_last_error (einit 1 : EVec Int) 1 0 0 true 0).2.2.2.2.2.2.2.1 (by decide)⟩

theorem ccLoop_length (old : List α) (cap d f : Int) :
    ∀ (n : Nat) (i e : Int) (acc : List α),
      (ccLoop old cap d f n i e acc).length = acc.length := by
  intro n
  induction n with
  | zero => intro i e acc; rfl
  | succ m ih =>
    intro i e acc
    simp only [ccLoop]
    split
    · exact ih _ _ _
    · rw [ih _ _ _]
      simp

theorem shiftDownLoop_length (cap : Int) :
    ∀ (n : Nat) (e : Int) (l : List α),
      (shiftDownLoop cap n e l).length = l.length := by
  intro n
  induction n with
  | zero => intro e l; rfl
  | succ m ih =>
    intro e l
    simp only [shiftDownLoop]
    rw [ih _ _]
    simp

theorem shiftUpLoop_length (cap : Int) :
    ∀ (n : Nat) (e : Int) (l : List α),
      (shiftUpLoop cap n e l).length = l.length := by
  intro n
  induction n with
  | zero => intro e l; rfl
  | succ m ih =>
    intro e l
    simp only [shiftUpLoop]
    rw [ih _ _]
    simp

theorem ccNewSize_bounds (v : Vec α) (nc d f : Int) (hnc : 0 ≤ nc)
    (hsz : 0 ≤ v.size + (if 0 ≤ d then -1 else 0) + (if 0 ≤ f then 1 else 0)) :
    0 ≤ ccNewSize v nc d f ∧ ccNewSize v nc d f ≤ nc := by
  unfold ccNewSize
  split <;> omega

theorem changeCapacity_some_spec {v w : Vec α} {a : Bool} {nc d f : Int}
    (hw : changeCapacity v a nc d f = some w) :
    w.increment = v.increment ∧ w.reserved = v.reserved ∧ w.beginning = 0 ∧
    w.end_ = w.size - 1 ∧ w.elements.length = w.capacity.toNat ∧
    ((nc = 0 ∧ w.capacity = 0 ∧ w.size = 0 ∧ w.elements = []) ∨
     (¬ nc = 0 ∧ w.capacity = nc ∧ w.size = ccNewSize v nc d f)) := by
  unfold changeCapacity at hw
  by_cases h0 : nc = 0
  · rw [if_pos h0] at hw
    obtain rfl := (Option.some.inj hw).symm
    exact ⟨rfl, rfl, rfl, rfl, rfl, Or.inl ⟨h0, rfl, rfl, rfl⟩⟩
  · rw [if_neg h0] at hw
    by_cases ha : a = false
    · rw [if_pos ha] at hw
      exact Option.noConfusion hw
    · rw [if_neg ha] at hw
      obtain rfl := (Option.some.inj hw).symm
      refine ⟨rfl, rfl, rfl, rfl, ?_, Or.inr ⟨h0, rfl, rfl⟩⟩
      simp [ccLoop_length]

theorem changeCapacity_some_inv {v w : Vec α} {a : Bool} {nc d f : Int}
    (hv : Inv v) (hnc : 0 ≤ nc)
    (hsz : 0 ≤ v.size + (if 0 ≤ d then -1 else 0) + (if 0 ≤ f then 1 else 0))
    (hw : changeCapacity v a nc d f = some w) : Inv w := by
  obtain ⟨hs0, hsc, hc0, hend, hlen, hb0, hbc, hinc, hres⟩ := hv
  obtain ⟨hi, hr, hb, he, hl, hrest⟩ := changeCapacity_some_spec hw
  rcases hrest with ⟨h0, hcap, hzero, hel⟩ | ⟨h0, hcap, hsz'⟩
  · refine ⟨by omega, by omega, fun _ => ⟨hzero, hel, hb, by omega⟩,
      fun hpos => absurd hpos (by omega), hl, by omega, fun hcpos => absurd hcpos (by omega),
      by omega, by omega⟩
  · obtain ⟨hlb, hub⟩ := ccNewSize_bounds v nc d f hnc hsz
    rw [← hsz'] at hlb hub
    refine ⟨by omega, by omega, fun hcc => absurd hcc (by omega), ?_, hl, by omega,
      fun _ => by omega, by omega, by omega⟩
    intro hpos
    rw [he, hb, hcap]
    have harr : 0 + w.size - 1 = w.size - 1 := by ring
    rw [harr]
    exact (Int.emod_eq_of_lt (by omega) (by omega)).symm

theorem pushBackFill_inv (v1 : Vec α) (x : α) (hv1 : Inv v1)
    (hlt : v1.size < v1.capacity) : Inv (pushBackFill v1 x) := by
  obtain ⟨hs0, hsc, hc0, hend, hlen, hb0, hbc, hinc, hres⟩ := hv1
  have hcp : 0 < v1.capacity := by omega
  have hcne : v1.capacity ≠ 0 := by omega
  have he0 : 0 ≤ (v1.end_ + 1) % v1.capacity := Int.emod_nonneg _ hcne
  have helt : (v1.end_ + 1) % v1.capacity < v1.capacity := Int.emod_lt_of_pos _ hcp
  unfold pushBackFill
  by_cases h1 : v1.size + 1 = 1
  · rw [if_pos h1]
    unfold Inv
    dsimp only
    refine ⟨by omega, by omega, fun hcc => absurd hcc hcne, ?_, by simp [hlen],
      he0, fun _ => helt, hinc, hres⟩
    intro _
    have harr : (v1.end_ + 1) % v1.capacity + (v1.size + 1) - 1 =
        (v1.end_ + 1) % v1.capacity := by omega
    rw [harr]
    exact (Int.emod_emod_of_dvd _ dvd_rfl).symm
  · rw [if_neg h1]
    unfold Inv
    dsimp only
    have hszpos : 0 < v1.size := by omega
    have hE := hend hszpos
    refine ⟨by omega, by omega, fun hcc => absurd hcc hcne, ?_, by simp [hlen],
      hb0, fun _ => hbc hcp, hinc, hres⟩
    intro _
    rw [hE, Int.emod_add_emod]
    congr 1
    ring

theorem pushFrontFill_inv (v1 : Vec α) (x : α) (hv1 : Inv v1)
    (hlt : v1.size < v1.capacity) : Inv (pushFrontFill v1 x) := by
  obtain ⟨hs0, hsc, hc0, hend, hlen, hb0, hbc, hinc, hres⟩ := hv1
  have hcp : 0 < v1.capacity := by omega
  have hcne : v1.capacity ≠ 0 := by omega
  have hb0' : 0 ≤ (v1.beginning + v1.capacity - 1) % v1.capacity := Int.emod_nonneg _ hcne
  have hblt : (v1.beginning + v1.capacity - 1) % v1.capacity < v1.capacity :=
    Int.emod_lt_of_pos _ hcp
  unfold pushFrontFill
  by_cases h1 : v1.size + 1 = 1
  · rw [if_pos h1]
    unfold Inv
    dsimp only
    refine ⟨by omega, by omega, fun hcc => absurd hcc hcne, ?_, by simp [hlen],
      hb0', fun _ => hblt, hinc, hres⟩
    intro _
    have harr : (v1.beginning + v1.capacity - 1) % v1.capacity + (v1.size + 1) - 1 =
        (v1.beginning + v1.capacity - 1) % v1.capacity := by omega
    rw [harr]
    exact (Int.emod_emod_of_dvd _ dvd_rfl).symm
  · rw [if_neg h1]
    unfold Inv
    dsimp only
    have hszpos : 0 < v1.size := by omega
    have hE := hend hszpos
    refine ⟨by omega, by omega, fun hcc => absurd hcc hcne, ?_, by simp [hlen],
      hb0', fun _ => hblt, hinc, hres⟩
    intro _
    have harr0 : (v1.beginning + v1.capacity - 1) % v1.capacity + (v1.size + 1) - 1 =
        (v1.beginning + v1.capacity - 1) % v1.capacity + v1.size := by ring
    rw [hE, harr0, Int.emod_add_emod]
    have harr : v1.beginning + v1.capacity - 1 + v1.size =
        (v1.beginning + v1.size - 1) + v1.capacity := by ring
    rw [harr, Int.add_emod_self]

theorem push_back_inv (a : Bool) (v : Vec α) (x : α) (hv : Inv v) :
    Inv (push_back a v x).1 := by
  unfold push_back
  by_cases hg : v.size = v.capacity
  · rw [if_pos hg]
    rcases hcc : changeCapacity v a (v.capacity + v.increment) (-1) (-1) with - | v1
    · exact hv
    · have hnc : (0:Int) ≤ v.capacity + v.increment := by
        have := hv.1; have := hv.2.1; have := hv.2.2.2.2.2.2.2.1; omega
      have hsz : (0:Int) ≤ v.size + (if (0:Int) ≤ -1 then -1 else 0) +
          (if (0:Int) ≤ -1 then 1 else 0) := by
        norm_num
        exact hv.1
      have hv1 : Inv v1 := changeCapacity_some_inv hv hnc hsz hcc
      have hspec := (changeCapacity_some_spec hcc).2.2.2.2.2
      rcases hspec with ⟨h0, -⟩ | ⟨-, hcap, hsize⟩
      · exfalso
        have := hv.1; have := hv.2.1; have := hv.2.2.2.2.2.2.2.1; omega
      · apply pushBackFill_inv v1 x hv1
        rw [hcap, hsize]
        unfold ccNewSize
        norm_num
        have := hv.1; have := hv.2.1; have := hv.2.2.2.2.2.2.2.1
        split <;> omega
  · rw [if_neg hg]
    exact pushBackFill_inv v x hv (by have := hv.2.1; omega)

theorem push_front_inv (a : Bool) (v : Vec α) (x : α) (hv : Inv v) :
    Inv (push_front a v x).1 := by
  unfold push_front
  by_cases hg : v.size = v.capacity
  · rw [if_pos hg]
    rcases hcc : changeCapacity v a (v.capacity + v.increment) (-1) (-1) with - | v1
    · exact hv
    · have hnc : (0:Int) ≤ v.capacity + v.increment := by
        have := hv.1; have := hv.2.1; have := hv.2.2.2.2.2.2.2.1; omega
      have hsz : (0:Int) ≤ v.size + (if (0:Int) ≤ -1 then -1 else 0) +
          (if (0:Int) ≤ -1 then 1 else 0) := by
        norm_num
        exact hv.1
      have hv1 : Inv v1 := changeCapacity_some_inv hv hnc hsz hcc
      have hspec := (changeCapacity_some_spec hcc).2.2.2.2.2
      rcases hspec with ⟨h0, -⟩ | ⟨-, hcap, hsize⟩
      · exfalso
        have := hv.1; have := hv.2.1; have := hv.2.2.2.2.2.2.2.1; omega
      · apply pushFrontFill_inv v1 x hv1
        rw [hcap, hsize]
        unfold ccNewSize
        norm_num
        have := hv.1; have := hv.2.1; have := hv.2.2.2.2.2.2.2.1
        split <;> omega
  · rw [if_neg hg]
    exact pushFrontFill_inv v x hv (by have := hv.2.1; omega)

theorem popShrink_inv (a : Bool) (v1 : Vec α) (hv1 : Inv v1) :
    Inv (popShrink a v1) := by
  unfold popShrink
  split
  · split
    · rcases hcc : changeCapacity v1 a v1.size (-1) (-1) with - | w
      · exact hv1
      · refine changeCapacity_some_inv hv1 hv1.1 ?_ hcc
        norm_num
        exact hv1.1
    · exact hv1
  · exact hv1

theorem pop_back_inv (a : Bool) (v : Vec α) (hv : Inv v) :
    Inv (pop_back a v).1 := by
  unfold pop_back
  by_cases h0 : v.size = 0
  · rw [if_pos h0]; exact hv
  · rw [if_neg h0]
    apply popShrink_inv
    obtain ⟨hs0, hsc, hc0, hend, hlen, hb0, hbc, hinc, hres⟩ := hv
    have hcp : 0 < v.capacity := by omega
    have hcne : v.capacity ≠ 0 := by omega
    unfold Inv
    dsimp only
    refine ⟨by omega, by omega, fun hcc => absurd hcc hcne, ?_, hlen, hb0,
      fun _ => hbc hcp, hinc, hres⟩
    intro hpos
    have hE := hend (by omega)
    rw [hE]
    have harr2 : (v.beginning + v.size - 1) % v.capacity + v.capacity - 1 =
        (v.beginning + v.size - 1) % v.capacity + (v.capacity - 1) := by ring
    rw [harr2, Int.emod_add_emod]
    have harr3 : v.beginning + v.size - 1 + (v.capacity - 1) =
        (v.beginning + (v.size - 1) - 1) + v.capacity := by ring
    rw [harr3, Int.add_emod_self]

theorem pop_front_inv (a : Bool) (v : Vec α) (hv : Inv v) :
    Inv (pop_front a v).1 := by
  unfold pop_front
  by_cases h0 : v.size = 0
  · rw [if_pos h0]; exact hv
  · rw [if_neg h0]
    apply popShrink_inv
    obtain ⟨hs0, hsc, hc0, hend, hlen, hb0, hbc, hinc, hres⟩ := hv
    have hcp : 0 < v.capacity := by omega
    have hcne : v.capacity ≠ 0 := by omega
    have hb0' : 0 ≤ (v.beginning + 1) % v.capacity := Int.emod_nonneg _ hcne
    have hblt : (v.beginning + 1) % v.capacity < v.capacity := Int.emod_lt_of_pos _ hcp
    unfold Inv
    dsimp only
    refine ⟨by omega, by omega, fun hcc => absurd hcc hcne, ?_, hlen, hb0',
      fun _ => hblt, hinc, hres⟩
    intro hpos
    have hE := hend (by omega)
    have harr0 : (v.beginning + 1) % v.capacity + (v.size - 1) - 1 =
        (v.beginning + 1) % v.capacity + (v.size - 2) := by ring
    rw [hE, harr0, Int.emod_add_emod]
    congr 1
    ring

theorem Inv_set_elements (w : Vec α) (n : Nat) (x : α) (hw : Inv w) :
    Inv { w with elements := w.elements.set n x } := by
  obtain ⟨hs0, hsc, hc0, hend, hlen, hb0, hbc, hinc, hres⟩ := hw
  refine ⟨hs0, hsc, ?_, hend, by simp [hlen], hb0, hbc, hinc, hres⟩
  intro hcc
  obtain ⟨a1, a2, a3, a4⟩ := hc0 hcc
  exact ⟨a1, by rw [a2]; rfl, a3, a4⟩

theorem erase_inv (a : Bool) (v : Vec α) (i : Int) (hv : Inv v) :
    Inv (erase a v i).1 := by
  by_cases h1 : i < 0 ∨ v.size ≤ i
  · simp only [erase, if_pos h1]; exact hv
  · by_cases h2 : i = v.size - 1
    · simp only [erase, if_neg h1, if_pos h2]; exact pop_back_inv a v hv
    · by_cases h3 : i = 0
      · simp only [erase, if_neg h1, if_neg h2, if_pos h3]; exact pop_front_inv a v hv
      · push_neg at h1
        obtain ⟨hi0, hilt⟩ := h1
        have h1' : ¬ (i < 0 ∨ v.size ≤ i) := by omega
        by_cases h4 : v.size - 1 + v.increment - 1 < v.capacity
        · simp only [erase, if_neg h1', if_neg h2, if_neg h3, if_pos h4]
          rcases hcc : changeCapacity v a (v.size - 1) i (-1) with - | w
          · exact hv
          · refine changeCapacity_some_inv hv (by omega) ?_ hcc
            rw [if_pos hi0]
            norm_num
            omega
        · simp only [erase, if_neg h1', if_neg h2, if_neg h3, if_neg h4]
          obtain ⟨hs0, hsc, hc0, hend, hlen, hb0, hbc, hinc, hres⟩ := hv
          have hcne : v.capacity ≠ 0 := by omega
          by_cases h5 : i < v.size - i
          · rw [if_pos h5]
            apply pop_front_inv
            exact ⟨hs0, hsc, fun hcc => absurd hcc hcne, hend,
              by dsimp only; rw [shiftDownLoop_length]; exact hlen, hb0, hbc, hinc, hres⟩
          · rw [if_neg h5]
            apply pop_back_inv
            exact ⟨hs0, hsc, fun hcc => absurd hcc hcne, hend,
              by dsimp only; rw [shiftUpLoop_length]; exact hlen, hb0, hbc, hinc, hres⟩

theorem insert_inv (a : Bool) (v : Vec α) (i : Int) (x : α) (hv : Inv v) :
    Inv (insert a v i x).1 := by
  by_cases h1 : i < 0 ∨ v.size ≤ i
  · simp only [insert, if_pos h1]; exact hv
  · by_cases h2 : i = v.size - 1
    · simp only [insert, if_neg h1, if_pos h2]; exact push_back_inv a v x hv
    · by_cases h3 : i = 0
      · simp only [insert, if_neg h1, if_neg h2, if_pos h3]; exact push_front_inv a v x hv
      · push_neg at h1
        obtain ⟨hi0, hilt⟩ := h1
        have h1' : ¬ (i < 0 ∨ v.size ≤ i) := by omega
        by_cases h4 : v.capacity < v.size + 1
        · simp only [insert, if_neg h1', if_neg h2, if_neg h3, if_pos h4]
          rcases hcc : changeCapacity v a (v.size + v.increment) (-1) i with - | w
          · exact hv
          · have hw : Inv w := by
              refine changeCapacity_some_inv hv ?_ ?_ hcc
              · have := hv.1; have := hv.2.2.2.2.2.2.2.1; omega
              · rw [if_pos hi0]
                norm_num
                have := hv.1; omega
            exact Inv_set_elements w i.toNat x hw
        · simp only [insert, if_neg h1', if_neg h2, if_neg h3, if_neg h4]
          obtain ⟨hs0, hsc, hc0, hend, hlen, hb0, hbc, hinc, hres⟩ := hv
          have hcp : 0 < v.capacity := by omega
          have hcne : v.capacity ≠ 0 := by omega
          have hE := hend (by omega)
          by_cases h5 : i < v.size - i
          · rw [if_pos h5]
            have hbb0 : 0 ≤ (v.beginning + v.capacity - 1) % v.capacity :=
              Int.emod_nonneg _ hcne
            have hbblt : (v.beginning + v.capacity - 1) % v.capacity < v.capacity :=
              Int.emod_lt_of_pos _ hcp
            unfold Inv
            dsimp only
            refine ⟨by omega, by omega, fun hcc => absurd hcc hcne, ?_,
              by rw [List.length_set, shiftUpLoop_length]; exact hlen,
              hbb0, fun _ => hbblt, hinc, hres⟩
            intro _
            have harr0 : (v.beginning + v.capacity - 1) % v.capacity + (v.size + 1) - 1 =
                (v.beginning + v.capacity - 1) % v.capacity + v.size := by ring
            rw [hE, harr0, Int.emod_add_emod]
            have harr : v.beginning + v.capacity - 1 + v.size =
                (v.beginning + v.size - 1) + v.capacity := by ring
            rw [harr, Int.add_emod_self]
          · rw [if_neg h5]
            have hee0 : 0 ≤ (v.end_ + 1) % v.capacity := Int.emod_nonneg _ hcne
            have heelt : (v.end_ + 1) % v.capacity < v.capacity := Int.emod_lt_of_pos _ hcp
            unfold Inv
            dsimp only
            refine ⟨by omega, by omega, fun hcc => absurd hcc hcne, ?_,
              by rw [List.length_set, shiftDownLoop_length]; exact hlen,
              hb0, fun _ => hbc hcp, hinc, hres⟩
            intro _
            rw [hE, Int.emod_add_emod]
            congr 1
            ring

theorem reserve_inv (a : Bool) (v : Vec α) (n : Int) (hv : Inv v) :
    Inv (reserve a v n).1 := by
  unfold reserve
  by_cases h1 : n < v.size
  · rw [if_pos h1]; exact hv
  · rw [if_neg h1]
    by_cases h2 : v.size < n
    · rw [if_pos h2]
      rcases hcc : changeCapacity v a n (-1) (-1) with - | w
      · exact hv
      · have hs0 : 0 ≤ v.size := hv.1
        have hw : Inv w := by
          refine changeCapacity_some_inv hv (by omega) ?_ hcc
          norm_num
          exact hs0
        obtain ⟨hw0, hwc, hc0, hend, hlen, hb0, hbc, hinc, hres⟩ := hw
        unfold Inv
        dsimp only
        exact ⟨hw0, hwc, fun hcc2 => hc0 hcc2, hend, hlen, hb0, hbc, hinc, by omega⟩
    · rw [if_neg h2]; exact hv

theorem clear_inv (v : Vec α) (hv : Inv v) : Inv (clear v) := by
  obtain ⟨hs0, hsc, hc0, hend, hlen, hb0, hbc, hinc, hres⟩ := hv
  unfold clear
  by_cases he : v.elements.isEmpty
  · rw [if_pos he]
    unfold Inv
    dsimp only
    exact ⟨hs0, hsc, fun hcc => hc0 hcc, hend, hlen, hb0, hbc, hinc, le_refl 0⟩
  · rw [if_neg he]
    have hcc : changeCapacity ({ v with reserved := 0 } : Vec α) true 0 (-1) (-1) =
        some { elements := [], capacity := 0, increment := v.increment,
               reserved := 0, size := 0, beginning := 0, end_ := -1 } := rfl
    rw [hcc]
    unfold Inv
    dsimp only
    exact ⟨le_refl 0, le_refl 0, fun _ => ⟨rfl, rfl, rfl, rfl⟩,
      fun hpos => absurd hpos (by decide), rfl, le_refl 0,
      fun hcpos => absurd hcpos (by decide), hinc, le_refl 0⟩

theorem vecNew_inv (k : Int) : Inv (vecNew k : Vec α) := by
  unfold vecNew Inv
  dsimp only
  refine ⟨le_refl 0, le_refl 0, fun _ => ⟨rfl, rfl, rfl, rfl⟩,
    fun hpos => absurd hpos (by decide), rfl, le_refl 0,
    fun hcpos => absurd hcpos (by decide), ?_, le_refl 0⟩
  split <;> omega

theorem foldl_push_back_inv (a : Bool) (xs : List α) :
    ∀ v : Vec α, Inv v → Inv (xs.foldl (fun w x => (push_back a w x).1) v) := by
  induction xs with
  | nil => intro v hv; exact hv
  | cons x t ih => intro v hv; exact ih _ (push_back_inv a v x hv)

theorem fromList_inv (a : Bool) (S : List α) : Inv (fromList a S : Vec α) := by
  have h1 : Inv ((reserve a (vecNew 1 : Vec α) (S.length : Int)).1) :=
    reserve_inv a _ _ (vecNew_inv 1)
  unfold fromList
  split
  · exact foldl_push_back_inv a S _ h1
  · exact h1

/-- C8: every public operation — construction (both constructors), the four
push/pop operations, `insert`, `erase`, `reserve` and `clear` — preserves the
representation invariant `Inv`, whose first three conjuncts are exactly the
claimed properties: `0 ≤ size ≤ capacity`; `capacity = 0` implies `size = 0`
with no buffer held; and `size > 0` implies
`end = (beginning + size - 1) mod capacity`. -/
theorem c8_invariant_preserved (v : Vec α) (hv : Inv v) (a : Bool) (x : α)
    (i n k : Int) (S : List α) :
    Inv (vecNew k : Vec α) ∧ Inv (fromList a S : Vec α) ∧
    Inv (push_back a v x).1 ∧ Inv (push_front a v x).1 ∧
    Inv (pop_back a v).1 ∧ Inv (pop_front a v).1 ∧
    Inv (insert a v i x).1 ∧ Inv (erase a v i).1 ∧
    Inv (reserve a v n).1 ∧ Inv (clear v) :=
  ⟨vecNew_inv k, fromList_inv a S, push_back_inv a v x hv, push_front_inv a v x hv,
   pop_back_inv a v hv, pop_front_inv a v hv, insert_inv a v i x hv,
   erase_inv a v i hv, reserve_inv a v n hv, clear_inv v hv⟩

/-- Witness for C8 at the concrete reachable state `c1state` (a wrapped
window with `beginning = 1`). -/
theorem c8_invariant_preserved_witness :
    Inv c1state ∧ Inv (clear c1state) :=
  ⟨by decide, (c8_invariant_preserved c1state (by decide) true 0 0 0 1 []).2.2.2.2.2.2.2.2.2⟩

theorem set_append_len (l1 l2 : List α) (x : α) :
    (l1 ++ l2).set l1.length x = l1 ++ l2.set 0 x := by
  induction l1 with
  | nil => simp
  | cons a t ih => simp only [List.cons_append, List.length_cons, List.set_cons_succ, ih]

theorem push_back_linState (n k : Nat) (L : List α) (x : α) (hk : k < n) :
    push_back true (linState n k L) x = (linState n (k + 1) (L.set k x), true) := by
  have hkn : ¬ ((k : Int) = (n : Int)) := by omega
  have he : ((k : Int) - 1 + 1) % (n : Int) = (k : Int) := by
    have h1 : (k : Int) - 1 + 1 = (k : Int) := by ring
    rw [h1]
    exact Int.emod_eq_of_lt (by omega) (by omega)
  unfold push_back linState
  dsimp only
  rw [if_neg hkn]
  dsimp only
  unfold pushBackFill
  dsimp only
  rw [he]
  by_cases hk0 : (k : Int) + 1 = 1
  · rw [if_pos hk0]
    have hkz : k = 0 := by omega
    subst hkz
    simp only [Prod.mk.injEq, Vec.mk.injEq, Int.toNat_natCast, and_true, true_and]
    push_cast
    simp
  · rw [if_neg hk0]
    simp only [Prod.mk.injEq, Vec.mk.injEq, Int.toNat_natCast, and_true, true_and]
    push_cast
    omega

theorem foldl_push_linState (n : Nat) :
    ∀ (S pre : List α), pre.length + S.length ≤ n →
      S.foldl (fun w x => (push_back true w x).1)
          (linState n pre.length (pre ++ List.replicate (n - pre.length) default))
        = linState n (pre.length + S.length)
            ((pre ++ S) ++ List.replicate (n - pre.length - S.length) default) := by
  intro S
  induction S with
  | nil =>
    intro pre h
    simp
  | cons x rest ih =>
    intro pre h
    have hlc : (x :: rest).length = rest.length + 1 := by simp
    have hk : pre.length < n := by omega
    rw [List.foldl_cons, push_back_linState n pre.length _ x hk]
    dsimp only
    have hrep : List.replicate (n - pre.length) (default : α)
        = default :: List.replicate (n - pre.length - 1) default := by
      have h9 : n - pre.length = (n - pre.length - 1) + 1 := by omega
      conv_lhs => rw [h9]
      rw [List.replicate_succ]
    have hset : (pre ++ List.replicate (n - pre.length) (default : α)).set pre.length x
        = (pre ++ [x]) ++ List.replicate (n - (pre.length + 1)) default := by
      rw [hrep, set_append_len]
      simp only [List.set_cons_zero]
      rw [List.append_assoc]
      simp only [List.singleton_append]
      have h10 : n - (pre.length + 1) = n - pre.length - 1 := by omega
      rw [h10]
    rw [hset]
    have hlen1 : (pre ++ [x]).length = pre.length + 1 := by simp
    have hstep := ih (pre ++ [x]) (by rw [hlen1]; omega)
    rw [hlen1] at hstep
    rw [hstep]
    have hc1 : pre.length + 1 + rest.length = pre.length + (x :: rest).length := by
      rw [hlc]; omega
    have hc2 : (pre ++ [x]) ++ rest = pre ++ x :: rest := by simp
    have hc3 : n - (pre.length + 1) - rest.length = n - pre.length - (x :: rest).length := by
      rw [hlc]; omega
    rw [hc1, hc2, hc3]

theorem reserve_vecNew (m : Nat) (hm : 0 < m) :
    reserve true (vecNew 1 : Vec α) (m : Int)
      = (linState m 0 (List.replicate m (default : α)), true) := by
  have h1 : ¬ ((m : Int) < (vecNew 1 : Vec α).size) := by
    unfold vecNew; dsimp only; omega
  have h2 : (vecNew 1 : Vec α).size < (m : Int) := by
    unfold vecNew; dsimp only; omega
  have hm0 : ¬ ((m : Int) = 0) := by omega
  have hcc : changeCapacity (vecNew 1 : Vec α) true (m : Int) (-1) (-1)
      = some { elements := List.replicate m (default : α), capacity := (m : Int),
               increment := 1, reserved := 0, size := 0, beginning := 0, end_ := -1 } := by
    unfold changeCapacity
    rw [if_neg hm0, if_neg (by simp : ¬ (true = false))]
    have hns : ccNewSize (vecNew 1 : Vec α) (m : Int) (-1) (-1) = 0 := by
      unfold ccNewSize vecNew
      dsimp only
      norm_num
    rw [hns]
    simp only [Int.toNat_zero, Int.toNat_natCast, ccLoop]
    norm_num
    exact ⟨rfl, rfl⟩
  unfold reserve
  rw [if_neg h1, if_pos h2, hcc]
  dsimp only
  unfold linState
  simp only [Prod.mk.injEq, Vec.mk.injEq]
  norm_num

theorem iterGo_linear (v : Vec α) (L : List α) (hL : v.elements = L)
    (hbe : v.beginning ≤ v.end_) (endP : Int) (hEnd : endP = (L.length : Int)) :
    ∀ (fuel : Nat) (pos : Nat), pos ≤ L.length → L.length - pos < fuel →
      iterGo v endP fuel (pos : Int) = L.drop pos := by
  subst hEnd
  intro fuel
  induction fuel with
  | zero => intro pos h1 h2; exact absurd h2 (Nat.not_lt_zero _)
  | succ f ih =>
    intro pos h1 h2
    simp only [iterGo]
    by_cases hp : (pos : Int) = (L.length : Int)
    · rw [if_pos hp]
      have hpl : pos = L.length := by omega
      rw [hpl, List.drop_length]
    · rw [if_neg hp]
      have hplt : pos < L.length := by omega
      have hnext : iterNext v (pos : Int) = ((pos + 1 : Nat) : Int) := by
        unfold iterNext
        rw [if_pos hbe]
        push_cast
        ring
      rw [hnext, ih (pos + 1) (by omega) (by omega), hL, Int.toNat_natCast,
        List.getD_eq_getElem L default hplt]
      exact (List.drop_eq_getElem_cons hplt).symm

/-- C9: constructing a container from an initializer sequence `S` (with every
allocation succeeding) and then iterating it from `begin ()` to `end ()`
yields exactly `S`, in order. -/
theorem c9_initializer_roundtrip (S : List α) : iterate (fromList true S) = S := by
  cases S with
  | nil => rfl
  | cons y T =>
    have hpos : 0 < (y :: T).length := by simp
    have hres := reserve_vecNew (α := α) (y :: T).length hpos
    unfold fromList
    rw [hres]
    dsimp only
    rw [if_pos rfl]
    have hfold := foldl_push_linState (y :: T).length (y :: T) [] (by simp)
    simp only [List.length_nil, List.nil_append, Nat.sub_zero, Nat.zero_add,
      Nat.sub_self, List.replicate_zero, List.append_nil] at hfold
    rw [hfold]
    unfold iterate linState
    dsimp only
    have hfix : (((y :: T).length : Int) - 1 + 1) = (((y :: T).length : Int)) := by ring
    rw [hfix, Int.toNat_natCast]
    have hgo := iterGo_linear
      (v := { elements := y :: T, capacity := ((y :: T).length : Int), increment := 1,
              reserved := ((y :: T).length : Int), size := ((y :: T).length : Int),
              beginning := 0, end_ := ((y :: T).length : Int) - 1 })
      (L := y :: T) rfl (by dsimp only; omega) (((y :: T).length : Int)) rfl
      ((y :: T).length + 1) 0 (by omega) (by omega)
    simpa using hgo

end VecSpec
